import Mathlib

/-!
Verification of the VibeSense sustained-emotion detector.

The definitions below are a shallow embedding of the decision core found in
`src/main.py` (`run_detection_loop`, lines 157-207), the configuration module
`src/config.py`, and the read-only history query `_recent_emotions` in
`src/server/main.py`.  Python floats are modelled as rationals; the Python
`deque` window is a `List` (append at the back, pop from the front);
`collections.Counter` is an association list whose keys appear in first-bump
order, with `most_common(1)` modelled by a left scan keeping the current
maximum on ties (Python's `Counter.most_common` uses `heapq.nlargest`, which
is stable, so the first-inserted key wins ties).
-/

namespace VibeSense

/-- One classifier output, as appended to `analysis_history`:
`(current_time, emotion, float(confidence or 0.0))`.  `label = none` means no
face/emotion was detected; when present the label is one of DeepFace's
non-empty emotion strings, so Python truthiness of the label coincides with
`Option.isSome`. -/
structure Sample where
  ts : ℚ
  label : Option String
  conf : ℚ
deriving DecidableEq, Repr

/-- An emitted signal: the payload of the `hardware_bridge.send_vibration`
call together with the emission timestamp (`current_time`). -/
structure Signal where
  label : String
  intensity : ℤ
  ts : ℚ
deriving DecidableEq, Repr

/-- Detector configuration, from `src/config.py`:
`SUSTAIN_WINDOW_SECONDS` (W), `SUSTAIN_RATIO` (R),
`STRONG_CONFIDENCE_THRESHOLD` (T), `SIGNAL_COOLDOWN_SECONDS` (C) and the
`EMOTION_TO_VIBRATION` dict (M), kept as an association list. -/
structure Config where
  W : ℚ
  R : ℚ
  T : ℚ
  C : ℚ
  M : List (String × ℤ)
deriving DecidableEq, Repr

/-- Mutable state of the detection loop: the `analysis_history` deque and the
`mute_until` scalar (initialised to `0.0`). -/
structure DetState where
  window : List Sample
  muteUntil : ℚ
deriving DecidableEq, Repr

/-- Python `config.EMOTION_TO_VIBRATION.get(label, 0)`: dictionary lookup
defaulting to 0 for unmapped labels. -/
def lookupVib (M : List (String × ℤ)) (l : String) : ℤ :=
  (M.lookup l).getD 0

/-- The per-sample strength test from the counting loop:
`if e and conf >= config.STRONG_CONFIDENCE_THRESHOLD`. -/
def strongB (cfg : Config) (s : Sample) : Bool :=
  s.label.isSome && decide (cfg.T ≤ s.conf)

/-- The label string of a sample (only meaningful when `label.isSome`). -/
def lab (s : Sample) : String :=
  s.label.getD ""

/-- One `counts[e] += 1` on the Counter: increment the first entry with the
given key, or append a fresh `(l, 1)` entry at the back (Counter / dict keys
keep insertion order). -/
def bump (l : String) : List (String × ℕ) → List (String × ℕ)
  | [] => [(l, 1)]
  | (k, n) :: rest => if k = l then (k, n + 1) :: rest else (k, n) :: bump l rest

/-- One iteration of the counting `for` loop over the window. -/
def stepCount (cfg : Config) (acc : List (String × ℕ)) (s : Sample) :
    List (String × ℕ) :=
  if strongB cfg s then bump (lab s) acc else acc

/-- The Counter built by the loop
`for _, e, conf in analysis_history: if e and conf >= T: counts[e] += 1`. -/
def strongCounts (cfg : Config) (w : List Sample) : List (String × ℕ) :=
  w.foldl (stepCount cfg) []

/-- Python `counts.most_common(1)[0]` on a non-empty counter: maximum count,
ties resolved to the earliest-inserted key (`heapq.nlargest` is stable). -/
def pickDominant : (String × ℕ) → List (String × ℕ) → (String × ℕ)
  | best, [] => best
  | best, (k, n) :: rest =>
    if best.2 < n then pickDominant (k, n) rest else pickDominant best rest

/-- The `(dominant_emotion, strong_count)` pair when the counter is
non-empty. -/
def dominantOf (cfg : Config) (w : List Sample) : Option (String × ℕ) :=
  match strongCounts cfg w with
  | [] => none
  | c :: cs => some (pickDominant c cs)

/-- The window after the bookkeeping step: append the new sample, then
`while analysis_history and analysis_history[0][0] < window_start: popleft()`
with `window_start = current_time - SUSTAIN_WINDOW_SECONDS`. -/
def newWindow (cfg : Config) (st : DetState) (s : Sample) : List Sample :=
  (st.window ++ [s]).dropWhile (fun x => decide (x.ts < s.ts - cfg.W))

/-- One detection tick of `run_detection_loop` (src/main.py lines 157-207):
window bookkeeping always happens; the sustain check runs only when
`current_time >= mute_until` and the window is non-empty; a signal is sent
only when the dominant strong ratio reaches `SUSTAIN_RATIO` and the mapped
vibration count is positive, in which case `mute_until` advances to
`current_time + SIGNAL_COOLDOWN_SECONDS`. -/
def observe (cfg : Config) (st : DetState) (s : Sample) :
    Option Signal × DetState :=
  if st.muteUntil ≤ s.ts ∧ newWindow cfg st s ≠ [] then
    match dominantOf cfg (newWindow cfg st s) with
    | none => (none, ⟨newWindow cfg st s, st.muteUntil⟩)
    | some (d, sc) =>
      if cfg.R ≤ (sc : ℚ) / ((newWindow cfg st s).length : ℚ) then
        if 0 < lookupVib cfg.M d then
          (some ⟨d, lookupVib cfg.M d, s.ts⟩, ⟨newWindow cfg st s, s.ts + cfg.C⟩)
        else (none, ⟨newWindow cfg st s, st.muteUntil⟩)
      else (none, ⟨newWindow cfg st s, st.muteUntil⟩)
  else (none, ⟨newWindow cfg st s, st.muteUntil⟩)

/-- The loop's initial state: empty history, `mute_until = 0.0`. -/
def initState : DetState :=
  ⟨[], 0⟩

/-- The sequence of emitted signals over a sample stream. -/
def runFrom (cfg : Config) (st : DetState) : List Sample → List Signal
  | [] => []
  | s :: rest =>
    match observe cfg st s with
    | (some sig, st1) => sig :: runFrom cfg st1 rest
    | (none, st1) => runFrom cfg st1 rest

/-- The state after feeding a sample stream. -/
def stateAfter (cfg : Config) (st : DetState) (samples : List Sample) :
    DetState :=
  samples.foldl (fun t s => (observe cfg t s).2) st

/-- Does a sample count towards the strong tally of a given label? -/
def matchesB (cfg : Config) (l : String) (s : Sample) : Bool :=
  strongB cfg s && (lab s == l)

/-- The number of strong samples carrying a given label in a window. -/
def countStrong (cfg : Config) (w : List Sample) (l : String) : ℕ :=
  (w.filter (matchesB cfg l)).length

/-- Index of the first strong sample with a given label in a window. -/
def firstIdx (cfg : Config) (w : List Sample) (l : String) : ℕ :=
  w.findIdx (matchesB cfg l)

/-- The `_recent_emotions(window_seconds)` query of `src/server/main.py`
(lines 147-151): a list comprehension over the history keeping samples with
`ts >= time.time() - window_seconds and emo`. -/
def recentEmotions (hist : List Sample) (now windowSeconds : ℚ) :
    List Sample :=
  hist.filter (fun s => decide (now - windowSeconds ≤ s.ts) && s.label.isSome)

/-- The query as a state transaction: it reads the shared history under the
lock and writes nothing back. -/
def recentQuery (st : DetState) (now windowSeconds : ℚ) :
    List Sample × DetState :=
  (recentEmotions st.window now windowSeconds, st)

/-- Configuration construction as `src/config.py` performs it: module-level
assignment of the five values.  No range check of any kind appears in the
module (or anywhere else in the repository), so construction is total and
never produces an error. -/
def buildConfig (W R T C : ℚ) (M : List (String × ℤ)) :
    Except String Config :=
  Except.ok ⟨W, R, T, C, M⟩

/-- A run of the detection loop as a relation between the fed sample stream
and the emitted signal stream, used to state determinism. -/
inductive RunRel (cfg : Config) : DetState → List Sample → List Signal → Prop
  | nil (st : DetState) : RunRel cfg st [] []
  | emit (st : DetState) (s : Sample) (st1 : DetState) (sig : Signal)
      (rest : List Sample) (sigs : List Signal)
      (h : observe cfg st s = (some sig, st1))
      (htl : RunRel cfg st1 rest sigs) :
      RunRel cfg st (s :: rest) (sig :: sigs)
  | skip (st : DetState) (s : Sample) (st1 : DetState)
      (rest : List Sample) (sigs : List Signal)
      (h : observe cfg st s = (none, st1))
      (htl : RunRel cfg st1 rest sigs) :
      RunRel cfg st (s :: rest) sigs

theorem observe_window (cfg : Config) (st : DetState) (s : Sample) :
    ((observe cfg st s).2).window = newWindow cfg st s := by
  unfold observe
  split
  · split
    · rfl
    · split
      · split <;> rfl
      · rfl
  · rfl

theorem observe_of_muted (cfg : Config) (st : DetState) (s : Sample)
    (h : s.ts < st.muteUntil) : (observe cfg st s).1 = none := by
  unfold observe
  rw [if_neg]
  intro hc
  exact absurd hc.1 (not_le.mpr h)

theorem observe_muteUntil_cases (cfg : Config) (st : DetState) (s : Sample) :
    ((observe cfg st s).2).muteUntil = st.muteUntil ∨
      (((observe cfg st s).2).muteUntil = s.ts + cfg.C ∧
        st.muteUntil ≤ s.ts ∧ (observe cfg st s).1 ≠ none) := by
  unfold observe
  split
  · rename_i hcond
    split
    · exact Or.inl rfl
    · split
      · split
        · exact Or.inr ⟨rfl, hcond.1, by simp⟩
        · exact Or.inl rfl
      · exact Or.inl rfl
  · exact Or.inl rfl

theorem observe_of_emit (cfg : Config) (st : DetState) (s : Sample)
    (sig : Signal) (h : (observe cfg st s).1 = some sig) :
    ((observe cfg st s).2).muteUntil = s.ts + cfg.C ∧
      st.muteUntil ≤ s.ts ∧ sig.ts = s.ts := by
  revert h
  unfold observe
  split
  · rename_i hcond
    split
    · intro h; exact absurd h (by simp)
    · split
      · split
        · intro h
          refine ⟨rfl, hcond.1, ?_⟩
          cases h
          rfl
        · intro h; exact absurd h (by simp)
      · intro h; exact absurd h (by simp)
  · intro h; exact absurd h (by simp)

theorem muteUntil_le_observe (cfg : Config) (st : DetState) (s : Sample)
    (hC : 0 ≤ cfg.C) : st.muteUntil ≤ ((observe cfg st s).2).muteUntil := by
  rcases observe_muteUntil_cases cfg st s with h | ⟨h, hle, _⟩
  · exact h.ge
  · rw [h]
    calc st.muteUntil ≤ s.ts := hle
    _ ≤ s.ts + cfg.C := le_add_of_nonneg_right hC

theorem stateAfter_append (cfg : Config) (st : DetState)
    (l1 l2 : List Sample) :
    stateAfter cfg st (l1 ++ l2) = stateAfter cfg (stateAfter cfg st l1) l2 :=
  List.foldl_append _ _ _ _

theorem stateAfter_cons (cfg : Config) (st : DetState) (s : Sample)
    (l : List Sample) :
    stateAfter cfg st (s :: l) = stateAfter cfg ((observe cfg st s).2) l :=
  rfl

theorem muteUntil_le_stateAfter (cfg : Config) (st : DetState)
    (l : List Sample) (hC : 0 ≤ cfg.C) :
    st.muteUntil ≤ (stateAfter cfg st l).muteUntil := by
  induction l generalizing st with
  | nil => exact le_refl _
  | cons s rest ih =>
    rw [stateAfter_cons]
    exact le_trans (muteUntil_le_observe cfg st s hC) (ih _)

theorem runRel_of_runFrom (cfg : Config) (st : DetState)
    (samples : List Sample) : RunRel cfg st samples (runFrom cfg st samples) := by
  induction samples generalizing st with
  | nil => exact RunRel.nil st
  | cons s rest ih =>
    unfold runFrom
    rcases hobs : observe cfg st s with ⟨o, st1⟩
    cases o with
    | some sig => exact RunRel.emit st s st1 sig rest _ hobs (ih st1)
    | none => exact RunRel.skip st s st1 rest _ hobs (ih st1)

/-- C9: two runs of the detector over the same ordered sample sequence with
the same configuration produce the same sequence of emitted signals (same
labels, intensities and timestamps): every quantity `run_detection_loop`
consults is a function of the configuration and the samples fed so far, so
the run relation is deterministic. -/
theorem run_deterministic (cfg : Config) (samples : List Sample)
    (sigs1 sigs2 : List Signal)
    (h1 : RunRel cfg initState samples sigs1)
    (h2 : RunRel cfg initState samples sigs2) : sigs1 = sigs2 := by
  have main : ∀ (st : DetState) (l : List Sample) (o1 o2 : List Signal),
      RunRel cfg st l o1 → RunRel cfg st l o2 → o1 = o2 := by
    intro st l o1 o2 g1
    induction g1 generalizing o2 with
    | nil st => intro g2; cases g2; rfl
    | emit st s st1 sig rest sigs h htl ih =>
      intro g2
      cases g2 with
      | emit _ _ st2 sig2 _ sigs2a h2a htl2 =>
        rw [h] at h2a
        injection h2a with ha hb
        injection ha with hsig
        rw [hsig, ih _ (hb ▸ htl2)]
      | skip _ _ st2 _ sigs2a h2a htl2 =>
        rw [h] at h2a
        injection h2a with ha hb
        exact absurd ha (by simp)
    | skip st s st1 rest sigs h htl ih =>
      intro g2
      cases g2 with
      | emit _ _ st2 sig2 _ sigs2a h2a htl2 =>
        rw [h] at h2a
        injection h2a with ha hb
        exact absurd ha (by simp)
      | skip _ _ st2 _ sigs2a h2a htl2 =>
        rw [h] at h2a
        injection h2a with ha hb
        exact ih _ (hb ▸ htl2)
  exact main initState samples sigs1 sigs2 h1 h2

theorem run_deterministic_witness :
    runFrom ⟨3/2, 4/5, 4/5, 5, [("happy", 1)]⟩ initState
        [⟨0, some "happy", 19/20⟩] =
      runFrom ⟨3/2, 4/5, 4/5, 5, [("happy", 1)]⟩ initState
        [⟨0, some "happy", 19/20⟩] :=
  run_deterministic ⟨3/2, 4/5, 4/5, 5, [("happy", 1)]⟩
    [⟨0, some "happy", 19/20⟩] _ _
    (runRel_of_runFrom _ _ _) (runRel_of_runFrom _ _ _)

/-- C2: cooldown exclusivity.  First conjunct: in any run fed in
non-decreasing timestamp order (with the spec's nonnegative cooldown), once
a signal is emitted for the sample `s0` the state's `mute_until` is pinned
to `s0.ts + C` and only ever grows, so every later sample whose timestamp is
strictly below `s0.ts + C` yields no signal, regardless of the window's
contents.  Second conjunct: a sample arriving at exactly `t0 + C` may fire
again (here `t0 = 0`, `C = 5`, and the sample at timestamp 5 emits). -/
theorem cooldown_exclusivity :
    (∀ (cfg : Config) (pre mid post : List Sample) (s0 s1 : Sample)
      (sig : Signal), 0 ≤ cfg.C →
      List.Sorted (fun a b => a.ts ≤ b.ts)
        (pre ++ s0 :: (mid ++ s1 :: post)) →
      (observe cfg (stateAfter cfg initState pre) s0).1 = some sig →
      s1.ts < s0.ts + cfg.C →
      (observe cfg (stateAfter cfg initState (pre ++ s0 :: mid)) s1).1 =
        none) ∧
    runFrom ⟨3/2, 4/5, 4/5, 5, [("happy", 1)]⟩ initState
        [⟨0, some "happy", 19/20⟩, ⟨5, some "happy", 19/20⟩] =
      [⟨"happy", 1, 0⟩, ⟨"happy", 1, 5⟩] := by
  constructor
  · intro cfg pre mid post s0 s1 sig hC _hord hemit hlt
    have hmute0 :
        ((observe cfg (stateAfter cfg initState pre) s0).2).muteUntil =
          s0.ts + cfg.C :=
      (observe_of_emit cfg _ s0 sig hemit).1
    have hstate :
        stateAfter cfg initState (pre ++ s0 :: mid) =
          stateAfter cfg
            ((observe cfg (stateAfter cfg initState pre) s0).2) mid := by
      rw [stateAfter_append, stateAfter_cons]
    have hmono :
        s0.ts + cfg.C ≤
          (stateAfter cfg initState (pre ++ s0 :: mid)).muteUntil := by
      rw [hstate, ← hmute0]
      exact muteUntil_le_stateAfter cfg _ mid hC
    exact observe_of_muted cfg _ s1 (lt_of_lt_of_le hlt hmono)
  · with_unfolding_all decide

theorem cooldown_exclusivity_witness :
    (observe ⟨3/2, 4/5, 4/5, 5, [("happy", 1)]⟩
        (stateAfter ⟨3/2, 4/5, 4/5, 5, [("happy", 1)]⟩ initState
          [⟨0, some "happy", 19/20⟩])
        ⟨1/2, some "happy", 19/20⟩).1 = none :=
  cooldown_exclusivity.1 ⟨3/2, 4/5, 4/5, 5, [("happy", 1)]⟩
    [] [] [] ⟨0, some "happy", 19/20⟩ ⟨1/2, some "happy", 19/20⟩
    ⟨"happy", 1, 0⟩ (by with_unfolding_all decide)
    (by
      refine List.pairwise_cons.mpr ⟨?_, List.sorted_singleton _⟩
      intro b hb
      rw [List.nil_append, List.mem_singleton] at hb
      rw [hb]
      with_unfolding_all decide)
    (by with_unfolding_all decide) (by with_unfolding_all decide)

theorem mem_dropWhile_lower (l : List Sample) (c : ℚ)
    (hs : List.Sorted (fun a b => a.ts ≤ b.ts) l) :
    ∀ x ∈ l.dropWhile (fun y => decide (y.ts < c)), c ≤ x.ts := by
  induction l with
  | nil => intro x hx; simp [List.dropWhile] at hx
  | cons a l ih =>
    rcases List.pairwise_cons.mp hs with ⟨ha, hl⟩
    by_cases hc : a.ts < c
    · rw [List.dropWhile_cons_of_pos (by simpa using hc)]
      exact ih hl
    · rw [List.dropWhile_cons_of_neg (by simpa using hc)]
      intro x hx
      rcases List.mem_cons.mp hx with rfl | hx
      · exact not_lt.mp hc
      · exact le_trans (not_lt.mp hc) (ha x hx)

theorem newWindow_facts (cfg : Config) (st : DetState) (s : Sample)
    (hsort : List.Sorted (fun a b => a.ts ≤ b.ts) st.window)
    (hbound : ∀ x ∈ st.window, x.ts ≤ s.ts) :
    (∀ x ∈ newWindow cfg st s, s.ts - cfg.W ≤ x.ts) ∧
      List.Sorted (fun a b => a.ts ≤ b.ts) (newWindow cfg st s) ∧
      (newWindow cfg st s).IsSuffix (st.window ++ [s]) ∧
      (∀ x ∈ newWindow cfg st s, x.ts ≤ s.ts) := by
  have happ : List.Sorted (fun a b => a.ts ≤ b.ts) (st.window ++ [s]) :=
    List.pairwise_append.mpr ⟨hsort, List.sorted_singleton s,
      fun a ha b hb => (List.mem_singleton.mp hb) ▸ hbound a ha⟩
  have hsuf : (newWindow cfg st s).IsSuffix (st.window ++ [s]) :=
    List.dropWhile_suffix _
  refine ⟨mem_dropWhile_lower _ _ happ, ?_, hsuf, ?_⟩
  · exact List.Pairwise.sublist hsuf.sublist happ
  · intro x hx
    have hx2 : x ∈ st.window ++ [s] := hsuf.sublist.mem hx
    rcases List.mem_append.mp hx2 with h | h
    · exact hbound x h
    · exact (List.mem_singleton.mp h) ▸ le_refl _

theorem window_run_inv (cfg : Config) (l : List Sample) (st : DetState)
    (t c : ℚ)
    (hsort : List.Sorted (fun a b => a.ts ≤ b.ts) st.window)
    (hbound : ∀ x ∈ st.window, x.ts ≤ t)
    (hpw : List.Sorted (fun a b => a.ts ≤ b.ts) l)
    (hfirst : ∀ x ∈ l, t ≤ x.ts)
    (hc : t ≤ c) (hlast : ∀ x ∈ l, x.ts ≤ c) :
    List.Sorted (fun a b => a.ts ≤ b.ts) ((stateAfter cfg st l).window) ∧
      ∀ x ∈ (stateAfter cfg st l).window, x.ts ≤ c := by
  induction l generalizing st t with
  | nil =>
    exact ⟨hsort, fun x hx => le_trans (hbound x hx) hc⟩
  | cons q l ih =>
    rcases List.pairwise_cons.mp hpw with ⟨hq, hl⟩
    have hqt : t ≤ q.ts := hfirst q (List.mem_cons_self q l)
    have hb2 : ∀ x ∈ st.window, x.ts ≤ q.ts :=
      fun x hx => le_trans (hbound x hx) hqt
    have hfacts := newWindow_facts cfg st q hsort hb2
    rw [stateAfter_cons]
    refine ih ((observe cfg st q).2) q.ts ?_ ?_ hl hq
      (hlast q (List.mem_cons_self q l))
      (fun x hx => hlast x (List.mem_cons_of_mem q hx))
    · rw [observe_window]; exact hfacts.2.1
    · rw [observe_window]; exact hfacts.2.2.2

/-- C3: after each `observe` in a run fed in non-decreasing timestamp order,
every retained window entry has `timestamp ≥ latest_timestamp - W`, the
window stays ordered oldest-first, and the new window is a suffix of the old
window with the new sample appended at the back (append-only insertion,
front-only eviction). -/
theorem window_eviction_invariant (cfg : Config) (pre post : List Sample)
    (s : Sample)
    (hord : List.Sorted (fun a b => a.ts ≤ b.ts) (pre ++ s :: post)) :
    (∀ x ∈ (stateAfter cfg initState (pre ++ [s])).window,
        s.ts - cfg.W ≤ x.ts) ∧
      List.Sorted (fun a b => a.ts ≤ b.ts)
        ((stateAfter cfg initState (pre ++ [s])).window) ∧
      ((stateAfter cfg initState (pre ++ [s])).window).IsSuffix
        ((stateAfter cfg initState pre).window ++ [s]) := by
  have hsplit := (List.pairwise_append.mp hord)
  have hpre : List.Sorted (fun a b => a.ts ≤ b.ts) pre := hsplit.1
  have hles : ∀ x ∈ pre, x.ts ≤ s.ts :=
    fun x hx => hsplit.2.2 x hx s (List.mem_cons_self s post)
  have hlow : ∀ x ∈ pre, (pre.map Sample.ts).foldr min s.ts ≤ x.ts := by
    have : ∀ (ts0 : List ℚ) (d : ℚ), ∀ y ∈ ts0, ts0.foldr min d ≤ y := by
      intro ts0
      induction ts0 with
      | nil => intro d y hy; simp at hy
      | cons a ts ih =>
        intro d y hy
        rcases List.mem_cons.mp hy with rfl | hy
        · exact min_le_left _ _
        · exact le_trans (min_le_right _ _) (ih d y hy)
    intro x hx
    exact this (pre.map Sample.ts) s.ts x.ts (List.mem_map_of_mem _ hx)
  have hlow2 : (pre.map Sample.ts).foldr min s.ts ≤ s.ts := by
    have : ∀ (ts0 : List ℚ) (d : ℚ), ts0.foldr min d ≤ d := by
      intro ts0
      induction ts0 with
      | nil => intro d; exact le_refl _
      | cons a ts ih => intro d; exact le_trans (min_le_right _ _) (ih d)
    exact this _ _
  have hrun := window_run_inv cfg pre initState
    ((pre.map Sample.ts).foldr min s.ts) s.ts
    (List.Pairwise.nil) (fun x hx => by simp [initState] at hx)
    hpre hlow hlow2 hles
  have hb2 : ∀ x ∈ (stateAfter cfg initState pre).window, x.ts ≤ s.ts :=
    hrun.2
  have hfacts := newWindow_facts cfg (stateAfter cfg initState pre) s
    hrun.1 hb2
  have hstep : stateAfter cfg initState (pre ++ [s]) =
      (observe cfg (stateAfter cfg initState pre) s).2 := by
    rw [stateAfter_append]; rfl
  rw [hstep, observe_window]
  exact ⟨hfacts.1, hfacts.2.1, hfacts.2.2.1⟩

theorem window_eviction_invariant_witness :
    (∀ x ∈ (stateAfter ⟨3/2, 4/5, 4/5, 5, [("happy", 1)]⟩ initState
        [⟨2, some "happy", 19/20⟩]).window,
      (2 : ℚ) - 3/2 ≤ x.ts) ∧
      List.Sorted (fun a b => a.ts ≤ b.ts)
        ((stateAfter ⟨3/2, 4/5, 4/5, 5, [("happy", 1)]⟩ initState
          [⟨2, some "happy", 19/20⟩]).window) ∧
      ((stateAfter ⟨3/2, 4/5, 4/5, 5, [("happy", 1)]⟩ initState
          [⟨2, some "happy", 19/20⟩]).window).IsSuffix
        ((stateAfter ⟨3/2, 4/5, 4/5, 5, [("happy", 1)]⟩ initState
          []).window ++ [⟨2, some "happy", 19/20⟩]) := by
  have h := window_eviction_invariant ⟨3/2, 4/5, 4/5, 5, [("happy", 1)]⟩
    [] [] ⟨2, some "happy", 19/20⟩ (List.sorted_singleton _)
  simpa using h

theorem strongCounts_snoc (cfg : Config) (w : List Sample) (s : Sample) :
    strongCounts cfg (w ++ [s]) = stepCount cfg (strongCounts cfg w) s := by
  simp [strongCounts, List.foldl_append]

theorem matchesB_iff (cfg : Config) (l : String) (s : Sample) :
    matchesB cfg l s = true ↔ (strongB cfg s = true ∧ lab s = l) := by
  simp [matchesB]

theorem lookup_bump_self (l : String) (acc : List (String × ℕ)) :
    (bump l acc).lookup l = some (((acc.lookup l).getD 0) + 1) := by
  induction acc with
  | nil => simp [bump, List.lookup]
  | cons p acc ih =>
    rcases p with ⟨k, n⟩
    by_cases hk : k = l
    · subst hk
      simp [bump, List.lookup]
    · rw [show bump l ((k, n) :: acc) = (k, n) :: bump l acc by
        simp [bump, hk]]
      have hne : (l == k) = false := by
        simp [Ne.symm hk]
      simp [List.lookup, hne, ih]

theorem lookup_bump_ne (l k : String) (h : k ≠ l)
    (acc : List (String × ℕ)) : (bump l acc).lookup k = acc.lookup k := by
  induction acc with
  | nil =>
    have hne : (k == l) = false := by simp [h]
    simp [bump, List.lookup, hne]
  | cons p acc ih =>
    rcases p with ⟨k2, n⟩
    by_cases hk : k2 = l
    · subst hk
      have hne : (k == k2) = false := by simp [h]
      simp [bump, List.lookup, hne]
    · rw [show bump l ((k2, n) :: acc) = (k2, n) :: bump l acc by
        simp [bump, hk]]
      by_cases hkk : k = k2
      · subst hkk; simp [List.lookup]
      · have hne : (k == k2) = false := by simp [hkk]
        simp [List.lookup, hne, ih]

theorem keys_bump (l : String) (acc : List (String × ℕ)) :
    (bump l acc).map Prod.fst =
      if l ∈ acc.map Prod.fst then acc.map Prod.fst
      else acc.map Prod.fst ++ [l] := by
  induction acc with
  | nil => simp [bump]
  | cons p acc ih =>
    rcases p with ⟨k, n⟩
    by_cases hk : k = l
    · subst hk
      simp [bump]
    · rw [show bump l ((k, n) :: acc) = (k, n) :: bump l acc by
        simp [bump, hk]]
      by_cases hm : l ∈ acc.map Prod.fst
      · simp [hm, ih, Ne.symm hk]
      · simp [hm, ih, Ne.symm hk]

theorem counts_pos (cfg : Config) (w : List Sample) :
    ∀ p ∈ strongCounts cfg w, 0 < p.2 := by
  have hbump : ∀ (l : String) (acc : List (String × ℕ)),
      (∀ p ∈ acc, 0 < p.2) → ∀ p ∈ bump l acc, 0 < p.2 := by
    intro l acc
    induction acc with
    | nil =>
      intro _ p hp
      simp [bump] at hp
      rw [hp]
      simp
    | cons q acc ih =>
      rcases q with ⟨k, n⟩
      intro hacc p hp
      by_cases hk : k = l
      · subst hk
        simp [bump] at hp
        rcases hp with rfl | hp
        · simp
        · exact hacc p (List.mem_cons_of_mem _ hp)
      · rw [show bump l ((k, n) :: acc) = (k, n) :: bump l acc by
          simp [bump, hk]] at hp
        rcases List.mem_cons.mp hp with rfl | hp
        · exact hacc _ (List.mem_cons_self _ _)
        · exact ih (fun q hq => hacc q (List.mem_cons_of_mem _ hq)) p hp
  induction w using List.reverseRecOn with
  | nil => intro p hp; simp [strongCounts] at hp
  | append_singleton w s ih =>
    rw [strongCounts_snoc]
    unfold stepCount
    split
    · exact hbump _ _ ih
    · exact ih

theorem countStrong_snoc (cfg : Config) (w : List Sample) (s : Sample)
    (l : String) :
    countStrong cfg (w ++ [s]) l =
      countStrong cfg w l + (if matchesB cfg l s then 1 else 0) := by
  simp only [countStrong, List.filter_append]
  by_cases h : matchesB cfg l s
  · simp [List.filter, h]
  · simp [List.filter, h]

theorem getCount_strongCounts (cfg : Config) (w : List Sample)
    (l : String) :
    ((strongCounts cfg w).lookup l).getD 0 = countStrong cfg w l := by
  induction w using List.reverseRecOn with
  | nil => simp [strongCounts, countStrong, List.lookup]
  | append_singleton w s ih =>
    rw [strongCounts_snoc, countStrong_snoc]
    unfold stepCount
    by_cases hs : strongB cfg s
    · rw [if_pos hs]
      by_cases hl : lab s = l
      · subst hl
        rw [lookup_bump_self, if_pos]
        · simp [ih]
        · exact (matchesB_iff cfg (lab s) s).mpr ⟨hs, rfl⟩
      · rw [lookup_bump_ne _ _ (fun he => hl he.symm), if_neg]
        · simp [ih]
        · intro hm
          exact hl ((matchesB_iff cfg l s).mp hm).2
    · rw [if_neg hs, if_neg]
      · simp [ih]
      · intro hm
        exact hs ((matchesB_iff cfg l s).mp hm).1

theorem mem_keys_strongCounts (cfg : Config) (w : List Sample)
    (k : String) :
    k ∈ (strongCounts cfg w).map Prod.fst ↔
      ∃ x ∈ w, matchesB cfg k x = true := by
  induction w using List.reverseRecOn with
  | nil => simp [strongCounts]
  | append_singleton w s ih =>
    rw [strongCounts_snoc]
    unfold stepCount
    by_cases hs : strongB cfg s
    · rw [if_pos hs, keys_bump]
      constructor
      · intro hk
        by_cases hm : lab s ∈ (strongCounts cfg w).map Prod.fst
        · rw [if_pos hm] at hk
          rcases ih.mp hk with ⟨x, hx, hmx⟩
          exact ⟨x, List.mem_append_left _ hx, hmx⟩
        · rw [if_neg hm, List.mem_append] at hk
          rcases hk with hk | hk
          · rcases ih.mp hk with ⟨x, hx, hmx⟩
            exact ⟨x, List.mem_append_left _ hx, hmx⟩
          · refine ⟨s, List.mem_append_right _ (List.mem_singleton_self s),
              ?_⟩
            rw [List.mem_singleton] at hk
            exact (matchesB_iff cfg k s).mpr ⟨hs, hk.symm⟩
      · rintro ⟨x, hx, hmx⟩
        rcases List.mem_append.mp hx with hx | hx
        · have hk : k ∈ (strongCounts cfg w).map Prod.fst :=
            ih.mpr ⟨x, hx, hmx⟩
          split
          · exact hk
          · exact List.mem_append_left _ hk
        · rw [List.mem_singleton] at hx
          subst hx
          have hk : lab x = k := ((matchesB_iff cfg k x).mp hmx).2
          subst hk
          split
          · assumption
          · exact List.mem_append_right _ (List.mem_singleton_self _)
    · rw [if_neg hs]
      rw [ih]
      constructor
      · rintro ⟨x, hx, hmx⟩
        exact ⟨x, List.mem_append_left _ hx, hmx⟩
      · rintro ⟨x, hx, hmx⟩
        rcases List.mem_append.mp hx with hx | hx
        · exact ⟨x, hx, hmx⟩
        · rw [List.mem_singleton] at hx
          subst hx
          exact absurd ((matchesB_iff cfg k x).mp hmx).1 hs

theorem countStrong_pos_iff (cfg : Config) (w : List Sample) (l : String) :
    0 < countStrong cfg w l ↔ ∃ x ∈ w, matchesB cfg l x = true := by
  rw [countStrong, List.length_pos]
  constructor
  · intro h
    rcases List.exists_mem_of_ne_nil _ h with ⟨x, hx⟩
    rcases List.mem_filter.mp hx with ⟨hm, hp⟩
    exact ⟨x, hm, hp⟩
  · rintro ⟨x, hx, hp⟩
    intro hnil
    have : x ∈ w.filter (matchesB cfg l) := List.mem_filter.mpr ⟨hx, hp⟩
    rw [hnil] at this
    simp at this

theorem findIdx_append_left {α : Type} (p : α → Bool) (l1 l2 : List α)
    (h : ∃ x ∈ l1, p x = true) :
    (l1 ++ l2).findIdx p = l1.findIdx p := by
  induction l1 with
  | nil => rcases h with ⟨x, hx, _⟩; simp at hx
  | cons a l1 ih =>
    rw [List.cons_append, List.findIdx_cons, List.findIdx_cons]
    by_cases hpa : p a
    · rw [hpa]
      rfl
    · rw [Bool.not_eq_true] at hpa
      rw [hpa]
      rcases h with ⟨x, hx, hpx⟩
      rcases List.mem_cons.mp hx with rfl | hx
      · rw [hpx] at hpa; cases hpa
      · simp [ih ⟨x, hx, hpx⟩]

theorem findIdx_append_right {α : Type} (p : α → Bool) (l1 l2 : List α)
    (h : ∀ x ∈ l1, p x = false) :
    (l1 ++ l2).findIdx p = l1.length + l2.findIdx p := by
  induction l1 with
  | nil => simp
  | cons a l1 ih =>
    rw [List.cons_append, List.findIdx_cons,
      h a (List.mem_cons_self a l1)]
    simp only [cond_false]
    rw [ih (fun x hx => h x (List.mem_cons_of_mem a hx))]
    simp [List.length_cons]
    omega

theorem keys_pairwise_firstIdx (cfg : Config) (w : List Sample) :
    List.Pairwise (fun k1 k2 => firstIdx cfg w k1 < firstIdx cfg w k2)
      ((strongCounts cfg w).map Prod.fst) := by
  induction w using List.reverseRecOn with
  | nil => simp [strongCounts]
  | append_singleton w s ih =>
    have hstable : ∀ k ∈ (strongCounts cfg w).map Prod.fst,
        firstIdx cfg (w ++ [s]) k = firstIdx cfg w k := by
      intro k hk
      exact findIdx_append_left _ _ _
        ((mem_keys_strongCounts cfg w k).mp hk)
    have hlt : ∀ k ∈ (strongCounts cfg w).map Prod.fst,
        firstIdx cfg w k < w.length := by
      intro k hk
      rcases (mem_keys_strongCounts cfg w k).mp hk with ⟨x, hx, hmx⟩
      exact List.findIdx_lt_length_of_exists ⟨x, hx, hmx⟩
    have hold : List.Pairwise
        (fun k1 k2 => firstIdx cfg (w ++ [s]) k1 < firstIdx cfg (w ++ [s]) k2)
        ((strongCounts cfg w).map Prod.fst) := by
      refine List.Pairwise.imp_of_mem ?_ ih
      intro a b ha hb hlt2
      rw [hstable a ha, hstable b hb]
      exact hlt2
    rw [strongCounts_snoc]
    unfold stepCount
    by_cases hs : strongB cfg s
    · rw [if_pos hs, keys_bump]
      by_cases hm : lab s ∈ (strongCounts cfg w).map Prod.fst
      · rw [if_pos hm]
        exact hold
      · rw [if_neg hm]
        refine List.pairwise_append.mpr ⟨hold, List.pairwise_singleton _ _,
          ?_⟩
        intro a ha b hb
        rw [List.mem_singleton] at hb
        subst hb
        have hnew : firstIdx cfg (w ++ [s]) (lab s) = w.length := by
          have hno : ∀ x ∈ w, matchesB cfg (lab s) x = false := by
            intro x hx
            by_contra hcon
            rw [Bool.not_eq_false] at hcon
            exact hm ((mem_keys_strongCounts cfg w (lab s)).mpr
              ⟨x, hx, hcon⟩)
          rw [firstIdx, findIdx_append_right _ _ _ hno,
            List.findIdx_cons]
          have hps : matchesB cfg (lab s) s = true :=
            (matchesB_iff cfg (lab s) s).mpr ⟨hs, rfl⟩
          rw [hps]
          rfl
        rw [hnew, hstable a ha]
        exact hlt a ha
    · rw [if_neg hs]
      exact hold

theorem nodup_keys_strongCounts (cfg : Config) (w : List Sample) :
    ((strongCounts cfg w).map Prod.fst).Nodup := by
  refine List.Pairwise.imp ?_ (keys_pairwise_firstIdx cfg w)
  intro a b hab he
  rw [he] at hab
  exact lt_irrefl _ hab

theorem lookup_of_mem_nodup (acc : List (String × ℕ)) (k : String) (n : ℕ)
    (hnd : (acc.map Prod.fst).Nodup) (hm : (k, n) ∈ acc) :
    acc.lookup k = some n := by
  induction acc with
  | nil => simp at hm
  | cons p acc ih =>
    rcases p with ⟨k2, n2⟩
    rcases List.mem_cons.mp hm with he | hm2
    · injection he with h1 h2
      subst h1; subst h2
      simp [List.lookup]
    · have hne : k ≠ k2 := by
        intro he
        subst he
        have : k ∈ acc.map Prod.fst :=
          List.mem_map_of_mem Prod.fst hm2
        exact (List.nodup_cons.mp hnd).1 (by simpa using this)
      have hbe : (k == k2) = false := by simp [hne]
      simp only [List.lookup, hbe, cond_false]
      exact ih (List.nodup_cons.mp hnd).2 hm2

theorem pickDominant_max :
    ∀ (cs : List (String × ℕ)) (c p : String × ℕ), p ∈ c :: cs →
      p.2 ≤ (pickDominant c cs).2 := by
  intro cs
  induction cs with
  | nil =>
    intro c p hp
    rw [List.mem_singleton] at hp
    subst hp
    exact le_refl _
  | cons q cs ih =>
    rcases q with ⟨k, n⟩
    intro c p hp
    unfold pickDominant
    split
    · rename_i hlt
      rcases List.mem_cons.mp hp with rfl | hp
      · exact le_trans (le_of_lt hlt)
          (ih (k, n) (k, n) (List.mem_cons_self _ _))
      · exact ih (k, n) p hp
    · rename_i hnlt
      rcases List.mem_cons.mp hp with rfl | hp
      · exact ih _ _ (List.mem_cons_self _ _)
      · rcases List.mem_cons.mp hp with rfl | hp
        · exact le_trans (not_lt.mp hnlt)
            (ih c c (List.mem_cons_self _ _))
        · exact ih c p (List.mem_cons_of_mem _ hp)

theorem pickDominant_split :
    ∀ (cs : List (String × ℕ)) (c : String × ℕ),
      ∃ pre post, c :: cs = pre ++ (pickDominant c cs) :: post ∧
        ∀ p ∈ pre, p.2 < (pickDominant c cs).2 := by
  intro cs
  induction cs with
  | nil =>
    intro c
    exact ⟨[], [], rfl, fun p hp => by simp at hp⟩
  | cons q cs ih =>
    rcases q with ⟨k, n⟩
    intro c
    unfold pickDominant
    split
    · rename_i hlt
      rcases ih (k, n) with ⟨pre, post, heq, hpre⟩
      refine ⟨c :: pre, post, by rw [List.cons_append, ← heq], ?_⟩
      intro p hp
      rcases List.mem_cons.mp hp with rfl | hp
      · exact lt_of_lt_of_le hlt
          (pickDominant_max cs (k, n) (k, n) (List.mem_cons_self _ _))
      · exact hpre p hp
    · rename_i hnlt
      rcases ih c with ⟨pre, post, heq, hpre⟩
      cases pre with
      | nil =>
        simp only [List.nil_append] at heq
        have h1 : pickDominant c cs = c := by
          injection heq with ha hb
          exact ha.symm
        exact ⟨[], (k, n) :: cs, by rw [List.nil_append, h1],
          fun p hp => by simp at hp⟩
      | cons c2 pre =>
        injection heq with h1 h2
        subst h1
        refine ⟨c :: (k, n) :: pre, post, ?_, ?_⟩
        · rw [List.cons_append, List.cons_append]
          exact congrArg _ (congrArg _ h2)
        · intro p hp
          rcases List.mem_cons.mp hp with rfl | hp
          · exact hpre p (List.mem_cons_self _ _)
          · rcases List.mem_cons.mp hp with rfl | hp
            · exact lt_of_le_of_lt (not_lt.mp hnlt)
                (hpre c (List.mem_cons_self _ _))
            · exact hpre p (List.mem_cons_of_mem _ hp)

/-- C4: the `(dominant_emotion, strong_count)` pair returned by
`counts.most_common(1)[0]` carries the label's true strong count, that count
is maximal, and among labels tying for the maximum the selected label is the
one whose first strong sample appears earliest in window order
(first-seen-wins, deterministically). -/
theorem dominant_tie_break (cfg : Config) (w : List Sample) (d : String)
    (sc : ℕ) (hdom : dominantOf cfg w = some (d, sc)) :
    countStrong cfg w d = sc ∧ (∀ l, countStrong cfg w l ≤ sc) ∧
      (∀ l, l ≠ d → countStrong cfg w l = sc →
        firstIdx cfg w d < firstIdx cfg w l) := by
  unfold dominantOf at hdom
  rcases hsc : strongCounts cfg w with _ | ⟨c, cs⟩
  · rw [hsc] at hdom; cases hdom
  · rw [hsc] at hdom
    injection hdom with hpick
    rcases pickDominant_split cs c with ⟨pre, post, heq, hpre⟩
    rw [hpick] at heq hpre
    have hmem : (d, sc) ∈ strongCounts cfg w := by
      rw [hsc, heq]
      exact List.mem_append_right _ (List.mem_cons_self _ _)
    have hnd := nodup_keys_strongCounts cfg w
    have hcd : countStrong cfg w d = sc := by
      rw [← getCount_strongCounts cfg w d,
        lookup_of_mem_nodup _ _ _ hnd hmem]
      rfl
    have hmax : ∀ l, countStrong cfg w l ≤ sc := by
      intro l
      by_cases hmem2 : l ∈ (strongCounts cfg w).map Prod.fst
      · rcases List.mem_map.mp hmem2 with ⟨⟨l2, n⟩, hpn, hfst⟩
        simp only at hfst
        subst hfst
        have hl : countStrong cfg w l2 = n := by
          rw [← getCount_strongCounts cfg w l2,
            lookup_of_mem_nodup _ _ _ hnd hpn]
          rfl
        rw [hl]
        have := pickDominant_max cs c (l2, n) (by rw [← hsc]; exact hpn)
        rw [hpick] at this
        exact this
      · have hz : countStrong cfg w l = 0 := by
          by_contra hnz
          exact hmem2 ((mem_keys_strongCounts cfg w l).mpr
            ((countStrong_pos_iff cfg w l).mp (Nat.pos_of_ne_zero hnz)))
        rw [hz]
        exact Nat.zero_le _
    refine ⟨hcd, hmax, ?_⟩
    intro l hne hcl
    have hscpos : 0 < sc := by
      have := counts_pos cfg w (d, sc) hmem
      simpa using this
    have hlpos : 0 < countStrong cfg w l := hcl ▸ hscpos
    have hlkeys : l ∈ (strongCounts cfg w).map Prod.fst :=
      (mem_keys_strongCounts cfg w l).mpr
        ((countStrong_pos_iff cfg w l).mp hlpos)
    rcases List.mem_map.mp hlkeys with ⟨⟨l2, n⟩, hpn, hfst⟩
    simp only at hfst
    subst hfst
    have hn : n = sc := by
      have hcl2 : countStrong cfg w l2 = n := by
        rw [← getCount_strongCounts cfg w l2,
          lookup_of_mem_nodup _ _ _ hnd hpn]
        rfl
      rw [← hcl, hcl2]
    subst hn
    have hpn2 : (l2, n) ∈ pre ++ (d, n) :: post := by
      rw [← heq, ← hsc]
      exact hpn
    have hkeys : (strongCounts cfg w).map Prod.fst =
        pre.map Prod.fst ++ d :: post.map Prod.fst := by
      rw [hsc, heq, List.map_append, List.map_cons]
    rcases List.mem_append.mp hpn2 with hin | hin
    · have := hpre (l2, n) hin
      simp at this
    · rcases List.mem_cons.mp hin with he | hin
      · injection he with h1 h2
        exact absurd h1 hne
      · have hpw := keys_pairwise_firstIdx cfg w
        rw [hkeys] at hpw
        have hdl := (List.pairwise_append.mp hpw).2.1
        have := (List.pairwise_cons.mp hdl).1
        exact this l2 (List.mem_map_of_mem Prod.fst hin)

theorem dominant_tie_break_witness :
    countStrong ⟨3/2, 4/5, 4/5, 5, [("happy", 1)]⟩
        [⟨0, some "sad", 9/10⟩, ⟨1, some "happy", 9/10⟩] "sad" = 1 ∧
      firstIdx ⟨3/2, 4/5, 4/5, 5, [("happy", 1)]⟩
          [⟨0, some "sad", 9/10⟩, ⟨1, some "happy", 9/10⟩] "sad" <
        firstIdx ⟨3/2, 4/5, 4/5, 5, [("happy", 1)]⟩
          [⟨0, some "sad", 9/10⟩, ⟨1, some "happy", 9/10⟩] "happy" := by
  have h := dominant_tie_break ⟨3/2, 4/5, 4/5, 5, [("happy", 1)]⟩
    [⟨0, some "sad", 9/10⟩, ⟨1, some "happy", 9/10⟩] "sad" 1
    (by with_unfolding_all decide)
  exact ⟨h.1, h.2.2 "happy" (by decide) (by with_unfolding_all decide)⟩

/-- C1: for a non-muted call with a non-empty window, a signal is emitted
for the current sample iff the strong counter is non-empty (so a dominant
pair exists), the dominant strong count over the total window size reaches
`SUSTAIN_RATIO`, and the mapping gives the dominant label a strictly
positive vibration count; in every other case `observe` yields no signal. -/
theorem observe_emits_iff (cfg : Config) (st : DetState) (s : Sample)
    (hmute : st.muteUntil ≤ s.ts) (hne : newWindow cfg st s ≠ []) :
    (∃ sig, (observe cfg st s).1 = some sig) ↔
      (∃ d sc, dominantOf cfg (newWindow cfg st s) = some (d, sc) ∧
        cfg.R ≤ (sc : ℚ) / ((newWindow cfg st s).length : ℚ) ∧
        0 < lookupVib cfg.M d) := by
  unfold observe
  rw [if_pos ⟨hmute, hne⟩]
  rcases hdom : dominantOf cfg (newWindow cfg st s) with _ | ⟨d, sc⟩
  · simp [hdom]
  · simp only [hdom]
    by_cases hr : cfg.R ≤ (sc : ℚ) / ((newWindow cfg st s).length : ℚ)
    · rw [if_pos hr]
      by_cases hv : 0 < lookupVib cfg.M d
      · rw [if_pos hv]
        constructor
        · intro _
          exact ⟨d, sc, rfl, hr, hv⟩
        · intro _
          exact ⟨⟨d, lookupVib cfg.M d, s.ts⟩, rfl⟩
      · rw [if_neg hv]
        constructor
        · rintro ⟨sig, hsig⟩
          exact absurd hsig (by simp)
        · rintro ⟨d1, sc1, hds, _, hv1⟩
          injection hds with h2
          injection h2 with h3 h4
          subst h3
          exact absurd hv1 hv
    · rw [if_neg hr]
      constructor
      · rintro ⟨sig, hsig⟩
        exact absurd hsig (by simp)
      · rintro ⟨d1, sc1, hds, hr1, _⟩
        injection hds with h2
        injection h2 with h3 h4
        subst h3
        subst h4
        exact absurd hr1 hr

theorem observe_emits_iff_witness :
    (∃ sig, (observe ⟨3/2, 4/5, 4/5, 5, [("happy", 1)]⟩ initState
        ⟨0, some "happy", 19/20⟩).1 = some sig) ↔
      (∃ d sc, dominantOf ⟨3/2, 4/5, 4/5, 5, [("happy", 1)]⟩
          (newWindow ⟨3/2, 4/5, 4/5, 5, [("happy", 1)]⟩ initState
            ⟨0, some "happy", 19/20⟩) = some (d, sc) ∧
        (⟨3/2, 4/5, 4/5, 5, [("happy", 1)]⟩ : Config).R ≤
          (sc : ℚ) / (((newWindow ⟨3/2, 4/5, 4/5, 5, [("happy", 1)]⟩
            initState ⟨0, some "happy", 19/20⟩).length : ℕ) : ℚ) ∧
        0 < lookupVib [("happy", 1)] d) :=
  observe_emits_iff ⟨3/2, 4/5, 4/5, 5, [("happy", 1)]⟩ initState
    ⟨0, some "happy", 19/20⟩ (by with_unfolding_all decide)
    (by with_unfolding_all decide)

/-- C5: whenever the dominant label is mapped to 0 (such as `neutral`) or is
absent from `EMOTION_TO_VIBRATION` (the `.get(label, 0)` default), `observe`
returns no signal — even if the strong ratio is 100% — and the lookup miss
is silent (the embedding is a total function, so no error path exists). -/
theorem zero_mapping_suppression (cfg : Config) (st : DetState) (s : Sample)
    (d : String) (sc : ℕ)
    (hdom : dominantOf cfg (newWindow cfg st s) = some (d, sc))
    (hz : cfg.M.lookup d = none ∨ cfg.M.lookup d = some 0) :
    (observe cfg st s).1 = none := by
  have hv : lookupVib cfg.M d = 0 := by
    unfold lookupVib
    rcases hz with h | h <;> rw [h] <;> rfl
  unfold observe
  by_cases hcond : st.muteUntil ≤ s.ts ∧ newWindow cfg st s ≠ []
  · rw [if_pos hcond]
    simp only [hdom]
    by_cases hr : cfg.R ≤ (sc : ℚ) / ((newWindow cfg st s).length : ℚ)
    · rw [if_pos hr, if_neg]
      rw [hv]
      exact lt_irrefl 0
    · rw [if_neg hr]
  · rw [if_neg hcond]

theorem zero_mapping_suppression_witness :
    (observe ⟨3/2, 4/5, 4/5, 5, [("neutral", 0)]⟩ initState
        ⟨0, some "neutral", 19/20⟩).1 = none :=
  zero_mapping_suppression ⟨3/2, 4/5, 4/5, 5, [("neutral", 0)]⟩ initState
    ⟨0, some "neutral", 19/20⟩ "neutral" 1 (by with_unfolding_all decide)
    (Or.inr (by with_unfolding_all decide))

/-- C6: Scenario A.  With `W = 1.5`, `R = 0.8`, `T = 0.8`, `C = 5` and
mapping `{happy: 1}`, ten samples `(happy, 0.95)` at 0.1s spacing produce
`Signal{happy, 1}` exactly once: the first sample already makes 100% ≥ 80%
of the window strong `happy`, so the signal fires there (timestamp 0), and
every one of the nine later samples lies within 5s of the emission, so the
cooldown suppresses any further signal. -/
theorem scenario_a_run :
    runFrom ⟨3/2, 4/5, 4/5, 5, [("happy", 1)]⟩ initState
        [⟨0, some "happy", 19/20⟩, ⟨1/10, some "happy", 19/20⟩,
          ⟨2/10, some "happy", 19/20⟩, ⟨3/10, some "happy", 19/20⟩,
          ⟨4/10, some "happy", 19/20⟩, ⟨5/10, some "happy", 19/20⟩,
          ⟨6/10, some "happy", 19/20⟩, ⟨7/10, some "happy", 19/20⟩,
          ⟨8/10, some "happy", 19/20⟩, ⟨9/10, some "happy", 19/20⟩] =
      [⟨"happy", 1, 0⟩] := by
  with_unfolding_all decide

/-- C7: `src/config.py` performs no validation whatsoever: the module binds
`SUSTAIN_RATIO`, `SUSTAIN_WINDOW_SECONDS` and `SIGNAL_COOLDOWN_SECONDS`
unconditionally, so a `sustain_ratio` of 1.5 (outside `(0, 1]`) together
with a negative cooldown is accepted without any error, contradicting the
spec's requirement that such configurations be rejected at construction
time with a descriptive failure. -/
theorem config_accepts_invalid :
    buildConfig (3/2) (3/2) (4/5) (-1) [] =
      Except.ok ⟨3/2, 3/2, 4/5, -1, []⟩ :=
  rfl

/-- C8 counterexample: a sample with `label = none` retained in the window
and within the queried period (`1 ≥ 1 - 5`) is dropped by
`_recent_emotions` (its filter also requires a truthy label), so the query
does not return all retained in-window samples as the claim states. -/
theorem recent_omits_unlabeled_cex :
    (recentQuery ⟨[⟨1, none, 0⟩], 0⟩ 1 5).1 = [] ∧ ((1 : ℚ) - 5 ≤ 1) := by
  with_unfolding_all decide

/-- C8 amended: `recent(window_seconds)` returns, in window order, exactly
the retained samples that are within the last `window_seconds` AND carry a
non-none label, and it mutates neither the window nor the cooldown state. -/
theorem recent_query_spec (st : DetState) (now w : ℚ) :
    (recentQuery st now w).2 = st ∧
      ((recentQuery st now w).1).Sublist st.window ∧
      ∀ x : Sample, x ∈ (recentQuery st now w).1 ↔
        (x ∈ st.window ∧ now - w ≤ x.ts ∧ x.label.isSome = true) := by
  refine ⟨rfl, List.filter_sublist _, ?_⟩
  intro x
  show x ∈ st.window.filter _ ↔ _
  rw [List.mem_filter]
  simp [and_assoc]

/-- C10 counterexample: a fresh detector has `mute_until = 0`, so the very
first sample with a negative timestamp (here -1) is muted and produces no
signal even though its confidence 0.95 meets `T = 0.8`, its label maps to
the positive intensity 1, and `R = 0.8 ≤ 1`. -/
theorem first_sample_negative_ts_cex :
    (observe ⟨3/2, 4/5, 4/5, 5, [("happy", 1)]⟩ initState
        ⟨-1, some "happy", 19/20⟩).1 = none ∧
      ((4 : ℚ)/5 ≤ 19/20) ∧ (0 < lookupVib [("happy", 1)] "happy") ∧
      ((4 : ℚ)/5 ≤ 1) := by
  with_unfolding_all decide

/-- C10 amended: for a fresh detector with a valid configuration
(`W ≥ 0`, `R ≤ 1`) the very first observed sample with a NONNEGATIVE
timestamp fires immediately whenever its confidence is at least `T` and its
label maps to a positive intensity: the window then holds exactly that
sample, so `total = 1` and `ratio = 1 ≥ R` — no minimum window occupancy,
duration, or sample count is required before the first emission. -/
theorem first_sample_fires (cfg : Config) (l : String) (c t : ℚ)
    (ht : 0 ≤ t) (hW : 0 ≤ cfg.W) (hR : cfg.R ≤ 1) (hc : cfg.T ≤ c)
    (hv : 0 < lookupVib cfg.M l) :
    (observe cfg initState ⟨t, some l, c⟩).1 =
      some ⟨l, lookupVib cfg.M l, t⟩ := by
  have hwin : newWindow cfg initState ⟨t, some l, c⟩ =
      [⟨t, some l, c⟩] := by
    unfold newWindow initState
    rw [List.nil_append, List.dropWhile_cons_of_neg]
    simp only [decide_eq_true_eq, not_lt]
    exact sub_le_self t hW
  have hstrong : strongB cfg ⟨t, some l, c⟩ = true := by
    simp [strongB, hc]
  have hdom : dominantOf cfg [⟨t, some l, c⟩] = some (l, 1) := by
    unfold dominantOf strongCounts
    simp [stepCount, hstrong, bump, lab, pickDominant]
  unfold observe
  rw [hwin]
  rw [if_pos ⟨by simpa [initState] using ht, by simp⟩]
  simp only [hdom]
  rw [if_pos]
  · rw [if_pos hv]
  · simp only [List.length_singleton, Nat.cast_one, div_one]
    exact hR

theorem first_sample_fires_witness :
    (observe ⟨3/2, 4/5, 4/5, 5, [("happy", 1)]⟩ initState
        ⟨2, some "happy", 19/20⟩).1 = some ⟨"happy", 1, 2⟩ := by
  have h := first_sample_fires ⟨3/2, 4/5, 4/5, 5, [("happy", 1)]⟩ "happy"
    (19/20) 2 (by with_unfolding_all decide) (by with_unfolding_all decide)
    (by with_unfolding_all decide) (by with_unfolding_all decide)
    (by with_unfolding_all decide)
  rw [h]
  with_unfolding_all decide

end VibeSense
